import Mathlib

/-!
# Verification of the GitHub repository-list organizer content script

Shallow embedding of the content script (final version: `checkPage` state
machine, prefix stripping, sections inserted at the container's start).

The document tree is modelled at the granularity the script observes:

* an item (`li`) is its title `span`'s text content, or `none` when the
  title-bearing sub-element is absent, together with a node identity;
* the list container is a list of entries, each either a relocated item
  node or a collapsible menu (`menu-container` with its title and content);
* the whole document is `Option (List Item)`: `none` when the container
  lookup fails.

JavaScript string primitives used by the script (`trim`, `substring`,
`split`, `toUpperCase`) are embedded at the character-list level.
-/

set_option maxHeartbeats 1000000

namespace RepoOrganizer

/-- JS `String.prototype.trim`: drop whitespace from both ends. -/
def jsTrim (s : String) : String :=
  ⟨((s.data.dropWhile Char.isWhitespace).reverse.dropWhile Char.isWhitespace).reverse⟩

/-- JS `String.prototype.substring(start)`: the suffix from index `start`
(empty when `start` is at or beyond the end). -/
def jsSubstring (s : String) (start : Nat) : String :=
  ⟨s.data.drop start⟩

/-- JS `String.prototype.toUpperCase` (ASCII fragment). -/
def jsToUpper (s : String) : String :=
  ⟨s.data.map Char.toUpper⟩

/-- Worker for JS `String.prototype.split(sep)` with a single-character
separator: `acc` holds the (reversed) characters of the current field. -/
def jsSplitAux (sep : Char) : List Char → List Char → List (List Char)
  | [], acc => [acc.reverse]
  | c :: cs, acc =>
    if c = sep then acc.reverse :: jsSplitAux sep cs []
    else jsSplitAux sep cs (c :: acc)

/-- JS `String.prototype.split(sep)` for a single-character separator. -/
def jsSplit (sep : Char) (s : String) : List String :=
  (jsSplitAux sep s.data []).map fun cs => ⟨cs⟩

/-- `title.split('-')[0]`: the group key derived from a title. -/
def keyOf (title : String) : String :=
  (jsSplit '-' title).headD ""

/-- A repository list item (`li`): node identity plus the text content of
its title span (`.//div[1]/h4/a/span`), `none` when that span is absent. -/
structure Item where
  id : Nat
  text : Option String
deriving DecidableEq

/-- An extracted record: `{ node, title }` as produced by
`getRepositoriesData` (the title is trimmed at extraction time). -/
structure RepoData where
  node : Item
  title : String
deriving DecidableEq

/-- `getRepositoriesData`: one record per item that has a title span, in
document order; the title is `textContent.trim()`; items without a title
span yield no record. -/
def getRepositoriesData (items : List Item) : List RepoData :=
  items.filterMap fun it => it.text.map fun t => RepoData.mk it (jsTrim t)

/-- The string-keyed properties a fresh object literal `{}` inherits from
`Object.prototype` (all of them functions or, for `__proto__`, an object,
hence truthy). A derived prefix equal to one of these makes
`!groups[prefix]` see the inherited truthy value, so the array is never
created and `groups[prefix].push(node)` throws a `TypeError`. -/
def protoKeys : List String :=
  ["constructor", "hasOwnProperty", "isPrototypeOf", "propertyIsEnumerable",
   "toLocaleString", "toString", "valueOf", "__defineGetter__",
   "__defineSetter__", "__lookupGetter__", "__lookupSetter__", "__proto__"]

/-- One step of the `reduce` in `groupRepositoriesByPrefix`, i.e.
`if (!groups[k]) groups[k] = []; groups[k].push(n)` on a plain object:
an own key is appended to (own properties shadow the prototype); an
absent key that names an `Object.prototype` member finds the inherited
truthy value, skips creation, and `.push` throws (`none`); otherwise the
key is created (at the end: insertion order of first-seen key). -/
def pushKey (groups : List (String × List Item)) (k : String) (n : Item) :
    Option (List (String × List Item)) :=
  match groups with
  | [] => if k ∈ protoKeys then none else some [(k, [n])]
  | (k', ns) :: rest =>
    if k' = k then some ((k', ns ++ [n]) :: rest)
    else (pushKey rest k n).map (fun gs => (k', ns) :: gs)

/-- `groupRepositoriesByPrefix`: fold the records into the object's own
properties (an association list from group key — text before the first
`'-'` — to member nodes, keys in creation order, members in input
order); `none` when some record's key collides with `Object.prototype`
and the `reduce` throws a `TypeError`. -/
def groupRepositoriesByPrefix (repoData : List RepoData) :
    Option (List (String × List Item)) :=
  repoData.foldlM (fun gs r => pushKey gs (keyOf r.title) r.node) []

/-- JS own-property read `repoGroups[k]`: `none` models `undefined`.
(Every key the script reads after a successful grouping is an own key of
the object, so the inherited properties never show up in these reads.) -/
def lookupGroup : List (String × List Item) → String → Option (List Item)
  | [], _ => none
  | (k', ns) :: rest, k => if k' = k then some ns else lookupGroup rest k

/-- The numeric value of a digit string (for array-index key ordering). -/
def digitsToNat (cs : List Char) : Nat :=
  cs.foldl (fun n c => n * 10 + (c.toNat - '0'.toNat)) 0

/-- An array-index property key: the canonical decimal representation
(digits only, no leading zero except `"0"` itself) of an integer below
`2^32 - 1`. `Object.entries` lists these keys first, in ascending
numeric order. -/
def isArrayIndexKey (s : String) : Bool :=
  !s.data.isEmpty && s.data.all (fun c => c.isDigit) &&
    (s.data.length = 1 || s.data.head? ≠ some '0') &&
    digitsToNat s.data < 4294967295

/-- Insert one entry into a list sorted by ascending numeric key value. -/
def insertByIdx (g : String × List Item) :
    List (String × List Item) → List (String × List Item)
  | [] => [g]
  | h :: t =>
    if digitsToNat g.1.data ≤ digitsToNat h.1.data then g :: h :: t
    else h :: insertByIdx g t

/-- Sort entries by ascending numeric key value (insertion sort; the
array-index keys of one object are pairwise distinct numbers). -/
def sortByIdx : List (String × List Item) → List (String × List Item)
  | [] => []
  | h :: t => insertByIdx h (sortByIdx t)

/-- `Object.entries` on the built object: array-index keys in ascending
numeric order first, then the remaining keys in insertion order. -/
def objectEntries (gs : List (String × List Item)) : List (String × List Item) :=
  sortByIdx (gs.filter fun g => isArrayIndexKey g.1) ++
    gs.filter fun g => !isArrayIndexKey g.1

/-- An entry of the rewritten container: either a relocated item node or a
collapsible menu (`menu-container`) with its displayed title, content
items and visibility flag (`display: block` = `true`). -/
inductive Entry where
  | item (it : Item)
  | menu (title : String) (content : List Item) (visible : Bool)
deriving DecidableEq

/-- The per-item body of the "Remove the prefix" loop in
`createCollapsibleMenu`: when the title span exists, its text becomes
`textContent.trim().substring(pre.length + 1)`. -/
def stripItem (pre : String) (it : Item) : Item :=
  match it.text with
  | none => it
  | some t => Item.mk it.id (some (jsSubstring (jsTrim t) (pre.length + 1)))

/-- The menu built for one multi-member group: title `pre.toUpperCase()`,
content the member nodes with their key prefix stripped, initially
hidden (`display: none`). -/
def mkMenu (pre : String) (nodes : List Item) : Entry :=
  Entry.menu (jsToUpper pre) (nodes.map (stripItem pre)) false

/-- `createCollapsibleMenu`: for each group in `Object.entries` iteration
order, skip it when it has fewer than two members, otherwise build its
menu and insert it before the container's first child
(`insertBefore(..., firstChild)`). -/
def createCollapsibleMenu (repoGroups : List (String × List Item))
    (repoListContainer : List Entry) : List Entry :=
  (objectEntries repoGroups).foldl
    (fun cont g => if g.2.length < 2 then cont else mkMenu g.1 g.2 :: cont)
    repoListContainer

/-- `processRepositories` on a present container: extract, group, keep the
orphans (group size `< 2`) in extraction order, clear the container,
reinsert the orphans, then build the collapsible menus. `none` models the
grouping's `TypeError` propagating out: it is thrown before
`innerHTML = ''`, so the document is left untouched and no rewrite
happens. (After a successful grouping, every key the orphan filter looks
up is an own key of the object.) -/
def processRepositories (items : List Item) : Option (List Entry) :=
  (groupRepositoriesByPrefix (getRepositoriesData items)).map fun repoGroups =>
    createCollapsibleMenu repoGroups
      ((((getRepositoriesData items).filter fun r =>
          ((lookupGroup repoGroups (keyOf r.title)).getD []).length < 2).map
        (·.node)).map Entry.item)

/-- `is_document_ready`: the container exists, holds at least one item,
and every item's title span exists with non-empty trimmed text; any
missing structure yields `false`. -/
def is_document_ready (doc : Option (List Item)) : Bool :=
  match doc with
  | none => false
  | some repoItems =>
    if repoItems.length = 0 then false
    else repoItems.all fun item =>
      match item.text with
      | none => false
      | some t => !(jsTrim t).data.isEmpty

/-- `processRepositories()` as a whole-document call: `some none` when
the container is missing (early return, document unchanged), `none` when
the grouping's `TypeError` propagates, `some (some es)` when the rewrite
completes with container contents `es`. -/
def processRepositoriesDoc (doc : Option (List Item)) :
    Option (Option (List Entry)) :=
  match doc with
  | none => some none
  | some items => (processRepositories items).map some

/-- The two module-level flags of the navigation monitor. -/
structure ViewState where
  isOnRepositoriesPage : Bool
  hasProcessedRepositories : Bool
deriving DecidableEq

/-- `checkPage`, run on every 100 ms tick: `isRepositoriesPage` is whether
`window.location.href` contains `/repositories` at this tick, `doc` is
the document at this tick (sampled once: the handler is synchronous).
The returned `Bool` records whether this tick invoked the pipeline.
`hasProcessedRepositories = true` is assigned only after
`processRepositories()` returns, so a pipeline that throws leaves the
flag false and the exception escapes to the timer loop. -/
def checkPage (s : ViewState) (isRepositoriesPage : Bool)
    (doc : Option (List Item)) : ViewState × Bool :=
  let s1 :=
    if isRepositoriesPage && !s.isOnRepositoriesPage then
      ViewState.mk true false
    else if !isRepositoriesPage && s.isOnRepositoriesPage then
      ViewState.mk false s.hasProcessedRepositories
    else s
  if s1.isOnRepositoriesPage && !s1.hasProcessedRepositories &&
      is_document_ready doc then
    match processRepositoriesDoc doc with
    | none => (s1, true)
    | some _ => (ViewState.mk s1.isOnRepositoriesPage true, true)
  else
    (s1, false)

/-- Run `checkPage` over a sequence of `(isRepositoriesPage, document)`
samples, counting how many ticks invoked the pipeline. -/
def runSeq (s : ViewState) (inputs : List (Bool × Option (List Item))) :
    ViewState × Nat :=
  inputs.foldl
    (fun p inp =>
      ((checkPage p.1 inp.1 inp.2).1,
        p.2 + (if (checkPage p.1 inp.1 inp.2).2 then 1 else 0)))
    (s, 0)

/-- The success-case behaviour of `pushKey` (a proof device: `pushKey`
equals `some` of this exactly when it does not throw). -/
def pushKeyOwn (groups : List (String × List Item)) (k : String) (n : Item) :
    List (String × List Item) :=
  match groups with
  | [] => [(k, [n])]
  | (k', ns) :: rest =>
    if k' = k then (k', ns ++ [n]) :: rest else (k', ns) :: pushKeyOwn rest k n

/-- The success-case grouping (a proof device): whenever
`groupRepositoriesByPrefix` returns `some gs`, `gs` equals this fold. -/
def groupsOwn (repoData : List RepoData) : List (String × List Item) :=
  repoData.foldl (fun gs r => pushKeyOwn gs (keyOf r.title) r.node) []

/-! ## String-level lemmas -/

theorem jsSplitAux_ne_nil (sep : Char) (cs acc : List Char) :
    jsSplitAux sep cs acc ≠ [] := by
  induction cs generalizing acc with
  | nil => simp [jsSplitAux]
  | cons c cs ih =>
    simp only [jsSplitAux]
    split
    · simp
    · exact ih _

theorem headD_jsSplitAux (sep : Char) (cs acc : List Char) :
    (jsSplitAux sep cs acc).headD [] =
      acc.reverse ++ cs.takeWhile (fun c => c ≠ sep) := by
  induction cs generalizing acc with
  | nil => simp [jsSplitAux]
  | cons c cs ih =>
    simp only [jsSplitAux]
    by_cases h : c = sep
    · subst h
      simp [List.takeWhile_cons]
    · rw [if_neg h, ih]
      simp [List.takeWhile_cons, h]

theorem keyOf_data (t : String) :
    (keyOf t).data = t.data.takeWhile (fun c => c ≠ '-') := by
  unfold keyOf jsSplit
  rcases h : jsSplitAux '-' t.data [] with _ | ⟨g, gs⟩
  · exact absurd h (jsSplitAux_ne_nil _ _ _)
  · have hh := headD_jsSplitAux '-' t.data []
    rw [h] at hh
    simpa using hh

/-! ## Grouping engine lemmas -/

theorem lookup_pushKeyOwn (G : List (String × List Item)) (k : String) (n : Item)
    (k' : String) :
    lookupGroup (pushKeyOwn G k n) k' =
      if k' = k then some (((lookupGroup G k).getD []) ++ [n])
      else lookupGroup G k' := by
  induction G with
  | nil =>
    by_cases h : k' = k
    · subst h
      simp [pushKeyOwn, lookupGroup]
    · have h2 : ¬ k = k' := fun hk => h hk.symm
      simp [pushKeyOwn, lookupGroup, h, h2]
  | cons e rest ih =>
    obtain ⟨a, ms⟩ := e
    simp only [pushKeyOwn]
    by_cases hak : a = k
    · subst hak
      by_cases h : a = k'
      · subst h
        simp [lookupGroup]
      · have h2 : ¬ k' = a := fun hk => h hk.symm
        simp [lookupGroup, h, h2]
    · rw [if_neg hak]
      by_cases h : a = k'
      · subst h
        simp [lookupGroup, hak]
      · simp only [lookupGroup, if_neg h, ih]
        by_cases hk : k' = k
        · simp [hk, lookupGroup, if_neg hak]
        · simp [hk]

theorem keys_pushKeyOwn (G : List (String × List Item)) (k : String) (n : Item) :
    (pushKeyOwn G k n).map Prod.fst =
      if k ∈ G.map Prod.fst then G.map Prod.fst else G.map Prod.fst ++ [k] := by
  induction G with
  | nil => simp [pushKeyOwn]
  | cons e rest ih =>
    obtain ⟨a, ms⟩ := e
    simp only [pushKeyOwn]
    by_cases hak : a = k
    · subst hak; simp
    · have : ¬ k = a := fun hk => hak hk.symm
      simp only [if_neg hak, List.map_cons, ih, List.mem_cons, this, false_or]
      by_cases hk : k ∈ rest.map Prod.fst
      · simp [hk]
      · simp [hk]

theorem join_pushKeyOwn (G : List (String × List Item)) (k : String) (n : Item) :
    List.Perm ((pushKeyOwn G k n).map Prod.snd).flatten
      (((G.map Prod.snd).flatten) ++ [n]) := by
  induction G with
  | nil => simp [pushKeyOwn]
  | cons e rest ih =>
    obtain ⟨a, ms⟩ := e
    simp only [pushKeyOwn]
    by_cases hak : a = k
    · subst hak
      simp only [if_pos rfl, List.map_cons, List.flatten_cons]
      have h2 : List.Perm (ms ++ ([n] ++ (rest.map Prod.snd).flatten))
          (ms ++ ((rest.map Prod.snd).flatten ++ [n])) :=
        List.Perm.append_left ms List.perm_append_comm
      simpa [List.append_assoc] using h2
    · simp only [if_neg hak, List.map_cons, List.flatten_cons]
      have h2 : List.Perm (ms ++ ((pushKeyOwn rest k n).map Prod.snd).flatten)
          (ms ++ ((rest.map Prod.snd).flatten ++ [n])) :=
        List.Perm.append_left ms ih
      simpa [List.append_assoc] using h2

theorem groupsOwn_append (R : List RepoData) (r : RepoData) :
    groupsOwn (R ++ [r]) =
      pushKeyOwn (groupsOwn R) (keyOf r.title) r.node := by
  simp [groupsOwn, List.foldl_append]

/-- `pushKey` succeeds exactly when the key is already own or does not
collide with `Object.prototype`, and then behaves as `pushKeyOwn`. -/
theorem pushKey_eq_own (G : List (String × List Item)) (k : String) (n : Item) :
    pushKey G k n =
      if k ∈ G.map Prod.fst ∨ k ∉ protoKeys then some (pushKeyOwn G k n)
      else none := by
  induction G with
  | nil =>
    by_cases hp : k ∈ protoKeys
    · simp [pushKey, pushKeyOwn, hp]
    · simp [pushKey, pushKeyOwn, hp]
  | cons e rest ih =>
    obtain ⟨a, ms⟩ := e
    simp only [pushKey, pushKeyOwn]
    by_cases hak : a = k
    · subst hak
      simp
    · have hka : ¬ k = a := fun hk => hak hk.symm
      rw [if_neg hak, if_neg hak, ih]
      have hiff : (k ∈ ((a, ms) :: rest).map Prod.fst ∨ k ∉ protoKeys) ↔
          (k ∈ rest.map Prod.fst ∨ k ∉ protoKeys) := by
        simp [List.mem_cons, hka]
      by_cases hc : k ∈ rest.map Prod.fst ∨ k ∉ protoKeys
      · rw [if_pos hc, if_pos (hiff.mpr hc), Option.map_some']
      · rw [if_neg hc, if_neg (fun hh => hc (hiff.mp hh)), Option.map_none']

theorem groupsM_append (R : List RepoData) (r : RepoData) :
    groupRepositoriesByPrefix (R ++ [r]) =
      (groupRepositoriesByPrefix R).bind
        (fun gs => pushKey gs (keyOf r.title) r.node) := by
  simp [groupRepositoriesByPrefix, List.foldlM_append]

/-- Bridge: a successful grouping is the success-case fold. -/
theorem groups_eq_own (R : List RepoData) (gs : List (String × List Item))
    (h : groupRepositoriesByPrefix R = some gs) : gs = groupsOwn R := by
  induction R using List.reverseRecOn generalizing gs with
  | nil =>
    have h0 : (some [] : Option (List (String × List Item))) = some gs := h
    rw [Option.some.injEq] at h0
    rw [← h0]
    rfl
  | append_singleton R r ih =>
    rw [groupsM_append] at h
    rcases hpre : groupRepositoriesByPrefix R with _ | gs0
    · rw [hpre] at h
      cases h
    · rw [hpre] at h
      have h1 : pushKey gs0 (keyOf r.title) r.node = some gs := h
      rw [pushKey_eq_own] at h1
      by_cases hc : keyOf r.title ∈ gs0.map Prod.fst ∨ keyOf r.title ∉ protoKeys
      · rw [if_pos hc, Option.some.injEq] at h1
        rw [← h1, groupsOwn_append, ← ih gs0 hpre]
      · rw [if_neg hc] at h1
        cases h1

theorem lookup_groups (R : List RepoData) (k : String) :
    lookupGroup (groupsOwn R) k =
      if (R.filter fun r => keyOf r.title = k) = [] then none
      else some ((R.filter fun r => keyOf r.title = k).map (·.node)) := by
  induction R using List.reverseRecOn generalizing k with
  | nil => simp [groupsOwn, lookupGroup]
  | append_singleton R r ih =>
    rw [groupsOwn_append, lookup_pushKeyOwn]
    by_cases hk : k = keyOf r.title
    · subst hk
      have hmem : r ∈ (R ++ [r]).filter fun s => keyOf s.title = keyOf r.title :=
        List.mem_filter.mpr ⟨by simp, by simp⟩

      have hne : ((R ++ [r]).filter fun s => keyOf s.title = keyOf r.title) ≠ [] :=
        fun h => by rw [h] at hmem; exact absurd hmem (List.not_mem_nil r)
      rw [if_pos rfl, if_neg hne]
      rw [ih]
      by_cases h0 : (R.filter fun s => keyOf s.title = keyOf r.title) = []
      · simp [h0, List.filter_append]
      · simp [h0, List.filter_append]
    · rw [if_neg hk, ih]
      have : ((R ++ [r]).filter fun s => keyOf s.title = k) =
          (R.filter fun s => keyOf s.title = k) := by
        have : ¬ keyOf r.title = k := fun h => hk h.symm
        simp [List.filter_append, this]
      rw [this]

theorem lookup_groups_getD (R : List RepoData) (k : String) :
    ((lookupGroup (groupsOwn R) k).getD []) =
      (R.filter fun r => keyOf r.title = k).map (·.node) := by
  rw [lookup_groups]
  by_cases h : (R.filter fun r => keyOf r.title = k) = []
  · simp [h]
  · simp [h]

theorem keys_groups_nodup (R : List RepoData) :
    ((groupsOwn R).map Prod.fst).Nodup := by
  induction R using List.reverseRecOn with
  | nil => simp [groupsOwn]
  | append_singleton R r ih =>
    rw [groupsOwn_append, keys_pushKeyOwn]
    by_cases h : keyOf r.title ∈ (groupsOwn R).map Prod.fst
    · simpa [h] using ih
    · simp [h, List.nodup_append, ih]

theorem join_groups_perm (R : List RepoData) :
    List.Perm ((groupsOwn R).map Prod.snd).flatten (R.map (·.node)) := by
  induction R using List.reverseRecOn with
  | nil => simp [groupsOwn]
  | append_singleton R r ih =>
    rw [groupsOwn_append]
    refine (join_pushKeyOwn _ _ _).trans ?_
    simpa using ih.append_right [r.node]

theorem lookup_eq_some_of_mem (G : List (String × List Item))
    (hnd : (G.map Prod.fst).Nodup) {k : String} {ns : List Item}
    (h : (k, ns) ∈ G) :
    lookupGroup G k = some ns := by
  induction G with
  | nil => simp at h
  | cons e rest ih =>
    obtain ⟨a, ms⟩ := e
    simp only [List.map_cons, List.nodup_cons] at hnd
    rcases List.mem_cons.mp h with h1 | h1
    · rw [Prod.mk.injEq] at h1
      obtain ⟨rfl, rfl⟩ := h1
      simp [lookupGroup]
    · have hkm : k ∈ rest.map Prod.fst := List.mem_map_of_mem Prod.fst h1
      have hne : a ≠ k := by
        intro hae
        rw [hae] at hnd
        exact hnd.1 hkm
      simp only [lookupGroup, if_neg hne]
      exact ih hnd.2 h1

theorem mem_of_lookup_eq_some (G : List (String × List Item)) (k : String)
    (ns : List Item) (h : lookupGroup G k = some ns) : (k, ns) ∈ G := by
  induction G with
  | nil => simp [lookupGroup] at h
  | cons e rest ih =>
    obtain ⟨a, ms⟩ := e
    simp only [lookupGroup] at h
    split at h
    · rename_i hak
      rw [Option.some.injEq] at h
      subst h
      subst hak
      exact List.mem_cons_self _ _
    · exact List.mem_cons_of_mem _ (ih h)

theorem members_eq_filter (R : List RepoData) {k : String} {ns : List Item}
    (h : (k, ns) ∈ groupsOwn R) :
    ns = (R.filter fun r => keyOf r.title = k).map (·.node) := by
  have h1 := lookup_eq_some_of_mem _ (keys_groups_nodup R) h
  rw [lookup_groups] at h1
  by_cases h0 : (R.filter fun r => keyOf r.title = k) = []
  · rw [if_pos h0] at h1; cases h1
  · rw [if_neg h0] at h1
    exact (Option.some.inj h1).symm

/-! ## Tree rewriter lemmas -/

/-- Normal form of the per-group fold: since every section is inserted
before the container's first child, the result is the multi-member
entries' menus in reverse of the iterated order, followed by the
container's previous contents. -/
theorem menuFold_eq (gs : List (String × List Item)) (cont : List Entry) :
    gs.foldl
        (fun cont g => if g.2.length < 2 then cont else mkMenu g.1 g.2 :: cont)
        cont =
      ((gs.filter fun g => 2 ≤ g.2.length).map fun g => mkMenu g.1 g.2).reverse
        ++ cont := by
  induction gs generalizing cont with
  | nil => simp
  | cons g gs ih =>
    rw [List.foldl_cons]
    by_cases h : g.2.length < 2
    · have h2 : ¬ 2 ≤ g.2.length := by omega
      rw [if_pos h, ih]
      simp [List.filter_cons, h2]
    · have h2 : 2 ≤ g.2.length := by omega
      rw [if_neg h, ih]
      simp [List.filter_cons, h2]

/-- `createCollapsibleMenu` in normal form: menus of the multi-member
groups in reverse `Object.entries` order, then the previous contents. -/
theorem createMenu_eq (gs : List (String × List Item)) (cont : List Entry) :
    createCollapsibleMenu gs cont =
      (((objectEntries gs).filter fun g => 2 ≤ g.2.length).map
        fun g => mkMenu g.1 g.2).reverse ++ cont :=
  menuFold_eq (objectEntries gs) cont

theorem insertByIdx_perm (g : String × List Item)
    (l : List (String × List Item)) :
    List.Perm (insertByIdx g l) (g :: l) := by
  induction l with
  | nil => rfl
  | cons h t ih =>
    simp only [insertByIdx]
    split
    · exact List.Perm.refl _
    · exact (ih.cons h).trans (List.Perm.swap g h t)

theorem sortByIdx_perm (l : List (String × List Item)) :
    List.Perm (sortByIdx l) l := by
  induction l with
  | nil => rfl
  | cons h t ih =>
    exact (insertByIdx_perm h (sortByIdx t)).trans (ih.cons h)

theorem mem_objectEntries {e : String × List Item}
    {gs : List (String × List Item)} :
    e ∈ objectEntries gs ↔ e ∈ gs := by
  unfold objectEntries
  rw [List.mem_append, (sortByIdx_perm _).mem_iff]
  constructor
  · rintro (h | h)
    · exact (List.mem_filter.mp h).1
    · exact (List.mem_filter.mp h).1
  · intro h
    by_cases hp : isArrayIndexKey e.1
    · exact Or.inl (List.mem_filter.mpr ⟨h, hp⟩)
    · exact Or.inr (List.mem_filter.mpr ⟨h, by simpa using hp⟩)

theorem mkMenu_mem_createMenu {gs : List (String × List Item)} {k : String}
    {ns : List Item} (cont : List Entry) (h : (k, ns) ∈ gs)
    (h2 : 2 ≤ ns.length) :
    mkMenu k ns ∈ createCollapsibleMenu gs cont := by
  rw [createMenu_eq]
  refine List.mem_append.mpr (Or.inl ?_)
  rw [List.mem_reverse]
  have hent : (k, ns) ∈ objectEntries gs := mem_objectEntries.mpr h
  exact List.mem_map_of_mem _ (List.mem_filter.mpr ⟨hent, by simpa using h2⟩)

/-- The orphan test the code performs (size of the looked-up group) agrees
on every extracted record with the spec-side test (number of records
sharing the key). -/
theorem orphan_filter_eq (R : List RepoData) :
    (R.filter fun r =>
        ((lookupGroup (groupsOwn R) (keyOf r.title)).getD []).length
          < 2) =
      R.filter fun r =>
        (R.countP fun s => keyOf s.title = keyOf r.title) < 2 := by
  apply List.filter_congr
  intro r _
  have h1 := lookup_groups_getD R (keyOf r.title)
  simp only [h1, List.length_map, ← List.countP_eq_length_filter]

/-- The item (non-menu) entries of a container, in order. -/
def itemsOf (es : List Entry) : List Item :=
  es.filterMap fun e =>
    match e with
    | Entry.item it => some it
    | Entry.menu _ _ _ => none

/-- The displayed menu titles of a container, in order. -/
def menuTitlesOf (es : List Entry) : List String :=
  es.filterMap fun e =>
    match e with
    | Entry.item _ => none
    | Entry.menu t _ _ => some t

theorem itemsOf_append (es fs : List Entry) :
    itemsOf (es ++ fs) = itemsOf es ++ itemsOf fs := by
  simp [itemsOf]

theorem itemsOf_menus (gs : List (String × List Item)) :
    itemsOf (((gs.filter fun g => 2 ≤ g.2.length).map fun g =>
      mkMenu g.1 g.2).reverse) = [] := by
  rw [itemsOf, List.filterMap_eq_nil_iff]
  intro e he
  rw [List.mem_reverse] at he
  obtain ⟨g, _, rfl⟩ := List.mem_map.mp he
  rfl

theorem itemsOf_items (ns : List Item) : itemsOf (ns.map Entry.item) = ns := by
  induction ns with
  | nil => rfl
  | cons n ns ih => simp [itemsOf] at ih ⊢; exact ih

theorem stripItem_id (pre : String) (it : Item) : (stripItem pre it).id = it.id := by
  unfold stripItem
  cases it.text <;> rfl

/-! ## Extraction lemmas -/

theorem nodes_sublist (items : List Item) :
    ((getRepositoriesData items).map (·.node)).Sublist items := by
  induction items with
  | nil => simp [getRepositoriesData]
  | cons it rest ih =>
    simp only [getRepositoriesData, List.filterMap_cons] at ih ⊢
    cases h : it.text with
    | none => simp only [Option.map_none']; exact ih.cons _
    | some t => simp only [Option.map_some', List.map_cons]; exact ih.cons₂ _

theorem repoData_id_nodup {items : List Item} (h : (items.map Item.id).Nodup) :
    ((getRepositoriesData items).map fun r => r.node.id).Nodup := by
  have hs := (nodes_sublist items).map Item.id
  rw [List.map_map] at hs
  exact h.sublist hs

/-! ## Navigation monitor lemmas -/

theorem checkPage_done (d : Option (List Item)) :
    checkPage (ViewState.mk true true) true d = (ViewState.mk true true, false) := rfl

theorem runSeq_foldl_done (n : Nat) (d : Option (List Item)) (c : Nat) :
    List.foldl
      (fun p inp =>
        ((checkPage p.1 inp.1 inp.2).1,
          p.2 + (if (checkPage p.1 inp.1 inp.2).2 then 1 else 0)))
      (ViewState.mk true true, c) (List.replicate n (true, d)) =
      (ViewState.mk true true, c) := by
  induction n with
  | zero => rfl
  | succ n ih =>
    rw [List.replicate_succ, List.foldl_cons]
    simpa [checkPage_done] using ih

/-- Normal form of the whole pipeline whenever the grouping succeeds:
the multi-member groups' menus in reverse `Object.entries` order, then
the orphan nodes (records whose key is shared by fewer than two
records) in extraction order. -/
theorem processRepositories_eq (items : List Item)
    (gs : List (String × List Item))
    (h : groupRepositoriesByPrefix (getRepositoriesData items) = some gs) :
    processRepositories items =
      some ((((objectEntries gs).filter fun g => 2 ≤ g.2.length).map
          fun g => mkMenu g.1 g.2).reverse
        ++ ((getRepositoriesData items).filter fun r =>
            ((getRepositoriesData items).countP
              fun s => keyOf s.title = keyOf r.title) < 2).map
            fun r => Entry.item r.node) := by
  have hbr := groups_eq_own _ _ h
  simp only [processRepositories, h, Option.map_some', Option.some.injEq]
  rw [createMenu_eq, hbr, orphan_filter_eq]
  simp [List.map_map, Function.comp]

/-! ## Claim C9 -/

/-- C9: for every title string, the derived group key equals the text
preceding the first occurrence of the delimiter `'-'` (the longest
`'-'`-free prefix), and when the title contains no delimiter the key is
the whole title. -/
theorem key_derivation (t : String) :
    (keyOf t).data = t.data.takeWhile (fun c => c ≠ '-') ∧
      ('-' ∉ t.data → keyOf t = t) := by
  refine ⟨keyOf_data t, fun h => ?_⟩
  apply String.ext
  rw [keyOf_data]
  rw [List.takeWhile_eq_self_iff]
  intro c hc
  simp only [ne_eq, decide_eq_true_eq]
  intro hcd
  subst hcd
  exact h hc

/-- Witness for C9 at a delimiter-free title. -/
theorem key_derivation_witness : keyOf "standalone" = "standalone" :=
  (key_derivation "standalone").2 (by decide)

/-! ## Claim C6 -/

/-- C6: the readiness probe returns `true` iff the container exists, holds
at least one item, and every item has a title span with non-empty trimmed
text; it is a total function (never raises) returning `false` on any
missing structure. -/
theorem is_document_ready_iff (doc : Option (List Item)) :
    is_document_ready doc = true ↔
      ∃ items, doc = some items ∧ items ≠ [] ∧
        ∀ it ∈ items, ∃ t, it.text = some t ∧ jsTrim t ≠ "" := by
  cases doc with
  | none => simp [is_document_ready]
  | some items =>
    simp only [is_document_ready, Option.some.injEq]
    by_cases h0 : items.length = 0
    · rw [if_pos h0]
      rw [List.length_eq_zero] at h0
      subst h0
      simp
    · rw [if_neg h0]
      have hne : items ≠ [] := by
        intro h
        subst h
        exact h0 rfl
      rw [List.all_eq_true]
      constructor
      · intro hall
        refine ⟨items, rfl, hne, ?_⟩
        intro it hit
        have hp := hall it hit
        cases htext : it.text with
        | none => rw [htext] at hp; cases hp
        | some t =>
          rw [htext] at hp
          simp only [] at hp
          refine ⟨t, rfl, ?_⟩
          intro hemp
          rw [hemp] at hp
          exact absurd hp (by decide)
      · rintro ⟨items', heq, _, hall⟩
        subst heq
        intro it hit
        obtain ⟨t, htext, hnemp⟩ := hall it hit
        rw [htext]
        have hd : (jsTrim t).data ≠ [] := by
          intro hd0
          exact hnemp (String.ext (by rw [hd0]))
        simp [List.isEmpty_iff, hd]

/-! ## Claim C7 -/

/-- C7 counterexample: for a record list with the derived key `toString`
the grouping throws a `TypeError` (the `Object.prototype` collision) and
produces no key-to-group mapping at all, so the claim, which asserts
member order and determinism for every record list, fails there. -/
theorem grouping_no_mapping_cex :
    groupRepositoriesByPrefix
        [RepoData.mk (Item.mk 0 (some "toString-a")) "toString-a",
         RepoData.mk (Item.mk 1 (some "toString-b")) "toString-b"] = none ∧
      [RepoData.mk (Item.mk 0 (some "toString-a")) "toString-a",
       RepoData.mk (Item.mk 1 (some "toString-b")) "toString-b"] ≠
        ([] : List RepoData) :=
  ⟨rfl, by decide⟩

/-- C7 (amended): for every record list on which the grouping completes
without throwing (it returns a group mapping), each group's member list
equals the subsequence of the records restricted to that key (mapped to
their nodes), and re-running the grouping yields the same mapping (the
grouping is a pure function of its input). -/
theorem grouping_stable (R : List RepoData) (gs : List (String × List Item))
    (h : groupRepositoriesByPrefix R = some gs) :
    (∀ k ns, (k, ns) ∈ gs →
        ns = (R.filter fun r => keyOf r.title = k).map (·.node)) ∧
      groupRepositoriesByPrefix R = some gs := by
  obtain rfl := groups_eq_own R gs h
  exact ⟨fun _ _ hm => members_eq_filter R hm, h⟩

/-- Witness for C7 at a concrete record list. -/
theorem grouping_stable_witness :
    ([Item.mk 0 (some "a-x"), Item.mk 2 (some "a-z")] : List Item) =
      (([RepoData.mk (Item.mk 0 (some "a-x")) "a-x",
         RepoData.mk (Item.mk 1 (some "b-y")) "b-y",
         RepoData.mk (Item.mk 2 (some "a-z")) "a-z"].filter
          fun r => keyOf r.title = "a").map (·.node)) :=
  (grouping_stable
    [RepoData.mk (Item.mk 0 (some "a-x")) "a-x",
     RepoData.mk (Item.mk 1 (some "b-y")) "b-y",
     RepoData.mk (Item.mk 2 (some "a-z")) "a-z"]
    [("a", [Item.mk 0 (some "a-x"), Item.mk 2 (some "a-z")]),
     ("b", [Item.mk 1 (some "b-y")])]
    (by decide)).1
    "a" [Item.mk 0 (some "a-x"), Item.mk 2 (some "a-z")] (by decide)

/-! ## Claim C4 -/

/-- C4 counterexample: a non-empty record list whose derived key is
`constructor` makes the grouping throw a `TypeError` and produce no
groups at all, so its record appears in no group and the claimed
partition does not exist for that input. -/
theorem grouping_throws_cex :
    groupRepositoriesByPrefix
        [RepoData.mk (Item.mk 0 (some "constructor-x")) "constructor-x"] =
        none ∧
      [RepoData.mk (Item.mk 0 (some "constructor-x")) "constructor-x"] ≠
        ([] : List RepoData) :=
  ⟨rfl, by decide⟩

/-- C4 (amended): for every record list on which the grouping completes
without throwing (it returns a group mapping), the output is a total
partition: the groups' members taken together are a permutation of the
records' nodes (nothing lost, nothing duplicated), group keys are
pairwise distinct, and every record belongs to exactly one group (the
one keyed by its derived key). -/
theorem grouping_partition (R : List RepoData) (gs : List (String × List Item))
    (h : groupRepositoriesByPrefix R = some gs) :
    List.Perm (gs.map Prod.snd).flatten (R.map (·.node)) ∧
      (gs.map Prod.fst).Nodup ∧
      ∀ r ∈ R, ∃! e : String × List Item,
        e ∈ gs ∧ e.1 = keyOf r.title ∧ r.node ∈ e.2 := by
  obtain rfl := groups_eq_own R gs h
  refine ⟨join_groups_perm R, keys_groups_nodup R, ?_⟩
  intro r hr
  have hfil : r ∈ R.filter fun s => keyOf s.title = keyOf r.title :=
    List.mem_filter.mpr ⟨hr, by simp⟩
  have hne : (R.filter fun s => keyOf s.title = keyOf r.title) ≠ [] := by
    intro h0
    rw [h0] at hfil
    exact absurd hfil (List.not_mem_nil r)
  have hlk : lookupGroup (groupsOwn R) (keyOf r.title) =
      some ((R.filter fun s => keyOf s.title = keyOf r.title).map (·.node)) := by
    rw [lookup_groups, if_neg hne]
  refine ⟨(keyOf r.title,
      (R.filter fun s => keyOf s.title = keyOf r.title).map (·.node)),
    ⟨mem_of_lookup_eq_some _ _ _ hlk, rfl, List.mem_map_of_mem _ hfil⟩, ?_⟩
  rintro ⟨k', ns'⟩ ⟨hmem, hk, _⟩
  simp only at hk
  subst hk
  have h2 := lookup_eq_some_of_mem _ (keys_groups_nodup R) hmem
  rw [hlk] at h2
  rw [Prod.mk.injEq]
  exact ⟨rfl, (Option.some.inj h2).symm⟩

/-- Witness for C4: the unique group of a concrete record. -/
theorem grouping_partition_witness :
    ∃! e : String × List Item,
      e ∈ [("a", [Item.mk 0 (some "a-x"), Item.mk 1 (some "a-y")])] ∧
        e.1 = keyOf "a-y" ∧ Item.mk 1 (some "a-y") ∈ e.2 :=
  (grouping_partition
    [RepoData.mk (Item.mk 0 (some "a-x")) "a-x",
     RepoData.mk (Item.mk 1 (some "a-y")) "a-y"]
    [("a", [Item.mk 0 (some "a-x"), Item.mk 1 (some "a-y")])]
    (by decide)).2.2
    (RepoData.mk (Item.mk 1 (some "a-y")) "a-y") (by decide)

/-! ## Claim C2 -/

/-- C2 counterexample: when the ready document makes the pipeline throw
(a `constructor-x` title), `hasProcessedRepositories` is never set —
the JS assigns it only after `processRepositories()` returns — so over
[arrive, ready, depart, arrive, ready] plus one extra ready trigger the
pipeline is invoked three times, not the claimed two. -/
theorem pipeline_reruns_after_throwing_cex :
    (runSeq (ViewState.mk false false)
      [(true, none), (true, some [Item.mk 0 (some "constructor-x")]),
       (false, none), (true, none),
       (true, some [Item.mk 0 (some "constructor-x")]),
       (true, some [Item.mk 0 (some "constructor-x")])]).2 = 3 ∧
      (3 : Nat) ≠ 2 :=
  ⟨rfl, by decide⟩

/-- C2 (amended): over the simulated trigger sequence
[arrive (not yet ready), ready, depart, arrive (not yet ready), ready],
when each processed arrival's pipeline run completes without throwing,
the pipeline runs exactly twice — once per arrival — and any number of
extra triggers fired after the arrival has been processed (while still
on the view) cause no further run, whatever document they observe. When
the pipeline throws, the processed flag stays false and later ready
triggers re-run it. -/
theorem pipeline_runs_once_per_arrival (n : Nat) (d : Option (List Item)) :
    (runSeq (ViewState.mk false false)
      ([(true, none), (true, some [Item.mk 0 (some "alpha-one")]),
        (false, none), (true, none),
        (true, some [Item.mk 0 (some "alpha-one")])]
        ++ List.replicate n (true, d))).2 = 2 := by
  unfold runSeq
  rw [List.foldl_append]
  have h5 : List.foldl
      (fun p inp =>
        ((checkPage p.1 inp.1 inp.2).1,
          p.2 + (if (checkPage p.1 inp.1 inp.2).2 then 1 else 0)))
      (ViewState.mk false false, 0)
      [(true, none), (true, some [Item.mk 0 (some "alpha-one")]),
       (false, none), (true, none),
       (true, some [Item.mk 0 (some "alpha-one")])] =
      (ViewState.mk true true, 2) := rfl
  rw [h5, runSeq_foldl_done]

/-! ## Claim C3 -/

/-- C3 (evaluation at the failing input): on a ready document whose one
item is titled `constructor-x` — derived key `constructor`, an
`Object.prototype` member — the grouping's
`groups[prefix].push(node)` throws a `TypeError` and the pipeline
aborts, contradicting the claimed "no aborting error path". -/
theorem pipeline_throws_on_proto_key :
    processRepositories [Item.mk 0 (some "constructor-x")] = none ∧
      is_document_ready (some [Item.mk 0 (some "constructor-x")]) = true ∧
      groupRepositoriesByPrefix
        (getRepositoriesData [Item.mk 0 (some "constructor-x")]) = none :=
  ⟨rfl, rfl, rfl⟩

/-! ## Claim C1 -/

/-- C1 counterexample: on a container whose records form the two
multi-member groups `a` then `b` (`Object.entries` iteration order
`["a", "b"]`, so the claimed section order is `["A", "B"]`), the
rewritten container's sections are titled `["B", "A"]`, refuting the
claim as stated. -/
theorem sections_not_in_iteration_order_cex :
    (processRepositories
        [Item.mk 0 (some "a-x"), Item.mk 1 (some "a-y"),
         Item.mk 2 (some "b-x"), Item.mk 3 (some "b-y")]).map menuTitlesOf =
      some ["B", "A"] ∧
      (groupRepositoriesByPrefix (getRepositoriesData
          [Item.mk 0 (some "a-x"), Item.mk 1 (some "a-y"),
           Item.mk 2 (some "b-x"), Item.mk 3 (some "b-y")])).map
        (fun gs => ((objectEntries gs).filter fun g => 2 ≤ g.2.length).map
          fun g => jsToUpper g.1) = some ["A", "B"] ∧
      (["B", "A"] : List String) ≠ ["A", "B"] :=
  ⟨rfl, rfl, by decide⟩

/-- C1 (amended): whenever the pipeline completes (the grouping does not
throw), every collapsible section precedes every standalone orphan item;
with two or more multi-member groups the sections appear in the reverse
of the grouping's iteration order — `Object.entries` order, which places
integer-like keys in ascending numeric order before the remaining keys
in insertion order of first-seen key — because each section is inserted
before the container's first child. -/
theorem sections_precede_orphans_reverse_order (items : List Item)
    (gs : List (String × List Item))
    (h : groupRepositoriesByPrefix (getRepositoriesData items) = some gs) :
    processRepositories items =
      some ((((objectEntries gs).filter fun g => 2 ≤ g.2.length).map
          fun g => mkMenu g.1 g.2).reverse
        ++ ((getRepositoriesData items).filter fun r =>
            ((getRepositoriesData items).countP
              fun s => keyOf s.title = keyOf r.title) < 2).map
            fun r => Entry.item r.node) :=
  processRepositories_eq items gs h

/-- Witness for C1 at an input with two integer-like keys: the grouping
creates `"100"` before `"2"`, `Object.entries` iterates `["2", "100"]`,
and the final section order is `["100", "2"]`. -/
theorem sections_reverse_order_witness :
    (processRepositories
        [Item.mk 0 (some "100-a"), Item.mk 1 (some "100-b"),
         Item.mk 2 (some "2-a"), Item.mk 3 (some "2-b")] =
      some ((((objectEntries
          [("100", [Item.mk 0 (some "100-a"), Item.mk 1 (some "100-b")]),
           ("2", [Item.mk 2 (some "2-a"), Item.mk 3 (some "2-b")])]).filter
            fun g => 2 ≤ g.2.length).map fun g => mkMenu g.1 g.2).reverse
        ++ ((getRepositoriesData
            [Item.mk 0 (some "100-a"), Item.mk 1 (some "100-b"),
             Item.mk 2 (some "2-a"), Item.mk 3 (some "2-b")]).filter fun r =>
            ((getRepositoriesData
              [Item.mk 0 (some "100-a"), Item.mk 1 (some "100-b"),
               Item.mk 2 (some "2-a"), Item.mk 3 (some "2-b")]).countP
              fun s => keyOf s.title = keyOf r.title) < 2).map
            fun r => Entry.item r.node)) ∧
      (processRepositories
        [Item.mk 0 (some "100-a"), Item.mk 1 (some "100-b"),
         Item.mk 2 (some "2-a"), Item.mk 3 (some "2-b")]).map menuTitlesOf =
        some ["100", "2"] :=
  ⟨sections_precede_orphans_reverse_order
    [Item.mk 0 (some "100-a"), Item.mk 1 (some "100-b"),
     Item.mk 2 (some "2-a"), Item.mk 3 (some "2-b")]
    [("100", [Item.mk 0 (some "100-a"), Item.mk 1 (some "100-b")]),
     ("2", [Item.mk 2 (some "2-a"), Item.mk 3 (some "2-b")])]
    (by decide), by decide⟩

/-! ## Claim C5 -/

/-- C5: in a multi-member group with key `k`, a member whose trimmed
title is `k`, the delimiter, then `suffix` gets displayed title exactly
`suffix` (even when `suffix` contains further delimiters), and its
stripped node sits in that group's collapsible section. -/
theorem title_stripping_correct (gs : List (String × List Item))
    (cont : List Entry) (k suffix t : String) (ns : List Item) (it : Item)
    (hmem : (k, ns) ∈ gs) (hlen : 2 ≤ ns.length) (hit : it ∈ ns)
    (htext : it.text = some t) (hform : jsTrim t = k ++ "-" ++ suffix) :
    stripItem k it = Item.mk it.id (some suffix) ∧
      Entry.menu (jsToUpper k) (ns.map (stripItem k)) false ∈
        createCollapsibleMenu gs cont ∧
      Item.mk it.id (some suffix) ∈ ns.map (stripItem k) := by
  have hs : jsSubstring (jsTrim t) (k.length + 1) = suffix := by
    rw [hform]
    apply String.ext
    show ((k ++ "-" ++ suffix).data).drop (k.length + 1) = suffix.data
    have hd : (k ++ "-" ++ suffix).data = (k.data ++ ['-']) ++ suffix.data := rfl
    rw [hd]
    exact List.drop_left' (by rw [List.length_append]; rfl)
  have h1 : stripItem k it = Item.mk it.id (some suffix) := by
    obtain ⟨i, tx⟩ := it
    obtain rfl : tx = some t := htext
    show Item.mk i (some (jsSubstring (jsTrim t) (k.length + 1))) =
      Item.mk i (some suffix)
    rw [hs]
  refine ⟨h1, ?_, ?_⟩
  · have hmm := mkMenu_mem_createMenu cont hmem hlen
    simpa [mkMenu] using hmm
  · rw [← h1]
    exact List.mem_map_of_mem _ hit

/-- Witness for C5 at the spec's scenario group. -/
theorem title_stripping_correct_witness :
    stripItem "alpha" (Item.mk 0 (some "alpha-one")) =
        Item.mk 0 (some "one") ∧
      Entry.menu (jsToUpper "alpha")
          ([Item.mk 0 (some "alpha-one"),
            Item.mk 1 (some "alpha-two")].map (stripItem "alpha")) false ∈
        createCollapsibleMenu
          [("alpha",
            [Item.mk 0 (some "alpha-one"), Item.mk 1 (some "alpha-two")])]
          [] ∧
      Item.mk 0 (some "one") ∈
        [Item.mk 0 (some "alpha-one"),
         Item.mk 1 (some "alpha-two")].map (stripItem "alpha") :=
  title_stripping_correct
    [("alpha", [Item.mk 0 (some "alpha-one"), Item.mk 1 (some "alpha-two")])]
    [] "alpha" "one" "alpha-one"
    [Item.mk 0 (some "alpha-one"), Item.mk 1 (some "alpha-two")]
    (Item.mk 0 (some "alpha-one"))
    (by decide) (by decide) (by decide) (by decide) (by decide)

/-! ## Claim C10 -/

/-- C10: in a multi-member group with key `k`, a member whose entire
trimmed title equals `k` (no delimiter) gets the empty string as its
displayed title, because `k.length + 1` leading characters are removed
from a title of length `k.length`. -/
theorem strip_whole_title_empty (gs : List (String × List Item))
    (cont : List Entry) (k t : String) (ns : List Item) (it : Item)
    (hmem : (k, ns) ∈ gs) (hlen : 2 ≤ ns.length) (hit : it ∈ ns)
    (htext : it.text = some t) (hform : jsTrim t = k) :
    stripItem k it = Item.mk it.id (some "") ∧
      Entry.menu (jsToUpper k) (ns.map (stripItem k)) false ∈
        createCollapsibleMenu gs cont ∧
      Item.mk it.id (some "") ∈ ns.map (stripItem k) := by
  have hs : jsSubstring (jsTrim t) (k.length + 1) = "" := by
    rw [hform]
    apply String.ext
    show (k.data).drop (k.length + 1) = "".data
    exact List.drop_eq_nil_of_le (Nat.le_succ _)
  have h1 : stripItem k it = Item.mk it.id (some "") := by
    obtain ⟨i, tx⟩ := it
    obtain rfl : tx = some t := htext
    show Item.mk i (some (jsSubstring (jsTrim t) (k.length + 1))) =
      Item.mk i (some "")
    rw [hs]
  refine ⟨h1, ?_, ?_⟩
  · have hmm := mkMenu_mem_createMenu cont hmem hlen
    simpa [mkMenu] using hmm
  · rw [← h1]
    exact List.mem_map_of_mem _ hit

/-- Witness for C10: a group of two items both titled exactly like the
key; the first one's displayed title becomes empty. -/
theorem strip_whole_title_empty_witness :
    stripItem "alpha" (Item.mk 0 (some "alpha")) = Item.mk 0 (some "") ∧
      Entry.menu (jsToUpper "alpha")
          ([Item.mk 0 (some "alpha"),
            Item.mk 1 (some "alpha")].map (stripItem "alpha")) false ∈
        createCollapsibleMenu
          [("alpha", [Item.mk 0 (some "alpha"), Item.mk 1 (some "alpha")])]
          [] ∧
      Item.mk 0 (some "") ∈
        [Item.mk 0 (some "alpha"),
         Item.mk 1 (some "alpha")].map (stripItem "alpha") :=
  strip_whole_title_empty
    [("alpha", [Item.mk 0 (some "alpha"), Item.mk 1 (some "alpha")])]
    [] "alpha" "alpha"
    [Item.mk 0 (some "alpha"), Item.mk 1 (some "alpha")]
    (Item.mk 0 (some "alpha"))
    (by decide) (by decide) (by decide) (by decide) (by decide)

/-! ## Claim C8 -/

/-- C8 counterexample: on a container holding `b-solo` (whose derived
key `b` is unique) together with `valueOf-x`, the grouping throws before
the container is cleared, so the claimed rewrite — reinserting the
unique-key record standalone — never takes place. -/
theorem orphan_rewrite_aborts_cex :
    processRepositories
        [Item.mk 0 (some "b-solo"), Item.mk 1 (some "valueOf-x")] = none ∧
      ((getRepositoriesData
          [Item.mk 0 (some "b-solo"), Item.mk 1 (some "valueOf-x")]).countP
        fun s => keyOf s.title = keyOf "b-solo") = 1 :=
  ⟨rfl, by decide⟩

/-- C8 (amended): whenever the pipeline completes (the grouping does not
throw), a record whose derived key is unique among the extracted records
is reinserted as a standalone item with its original node (title text
unchanged), the orphan nodes appear in their original extraction order,
and no collapsible section's content contains that record's node. -/
theorem orphan_invariance (items : List Item) (out : List Entry)
    (hids : (items.map Item.id).Nodup)
    (hout : processRepositories items = some out)
    (r : RepoData) (hr : r ∈ getRepositoriesData items)
    (huniq : ((getRepositoriesData items).countP
      fun s => keyOf s.title = keyOf r.title) = 1) :
    itemsOf out =
      ((getRepositoriesData items).filter fun s =>
        ((getRepositoriesData items).countP
          fun u => keyOf u.title = keyOf s.title) < 2).map (·.node) ∧
      Entry.item r.node ∈ out ∧
      ∀ mt mc mv, Entry.menu mt mc mv ∈ out →
        ∀ it ∈ mc, it.id ≠ r.node.id := by
  rcases hgrp : groupRepositoriesByPrefix (getRepositoriesData items) with _ | gs
  · rw [processRepositories, hgrp] at hout
    simp at hout
  · have heq := processRepositories_eq items gs hgrp
    rw [hout, Option.some.injEq] at heq
    subst heq
    obtain rfl := groups_eq_own _ _ hgrp
    refine ⟨?_, ?_, ?_⟩
    · rw [itemsOf_append, itemsOf_menus, List.nil_append]
      have hmm : (((getRepositoriesData items).filter fun s =>
          ((getRepositoriesData items).countP
            fun u => keyOf u.title = keyOf s.title) < 2).map
            fun s => Entry.item s.node) =
          ((((getRepositoriesData items).filter fun s =>
            ((getRepositoriesData items).countP
              fun u => keyOf u.title = keyOf s.title) < 2).map
            (·.node)).map Entry.item) := by
        rw [List.map_map]
        rfl
      rw [hmm, itemsOf_items]
    · refine List.mem_append.mpr (Or.inr ?_)
      refine List.mem_map.mpr ⟨r, ?_, rfl⟩
      exact List.mem_filter.mpr ⟨hr, by simp [huniq]⟩
    · intro mt mc mv hemem it hitc
      rcases List.mem_append.mp hemem with hl | hrr
      · rw [List.mem_reverse] at hl
        obtain ⟨g, hg, hgeq⟩ := List.mem_map.mp hl
        obtain ⟨hgent, hglen⟩ := List.mem_filter.mp hg
        have hgmem := mem_objectEntries.mp hgent
        rw [mkMenu, Entry.menu.injEq] at hgeq
        obtain ⟨_, hc, _⟩ := hgeq
        rw [← hc] at hitc
        obtain ⟨n, hn, hneq⟩ := List.mem_map.mp hitc
        have hmembers := members_eq_filter (getRepositoriesData items) hgmem
        rw [hmembers] at hn
        obtain ⟨s, hsfil, hsn⟩ := List.mem_map.mp hn
        obtain ⟨hsR, hskey⟩ := List.mem_filter.mp hsfil
        intro hid
        rw [← hneq, stripItem_id, ← hsn] at hid
        have hinj := List.inj_on_of_nodup_map (repoData_id_nodup hids)
        have hsr : s = r := hinj hsR hr hid
        have hkey : keyOf s.title = g.1 := of_decide_eq_true hskey
        have hkr : keyOf r.title = g.1 := by rw [← hsr]; exact hkey
        have hlen2 : 2 ≤ g.2.length := of_decide_eq_true hglen
        rw [hmembers, List.length_map, ← List.countP_eq_length_filter] at hlen2
        rw [← hkr, huniq] at hlen2
        omega
      · obtain ⟨s, _, hseq⟩ := List.mem_map.mp hrr
        exact Entry.noConfusion hseq

/-- Witness for C8: the unique-key record `b-solo` is reinserted
standalone into the completed rewrite. -/
theorem orphan_invariance_witness :
    Entry.item (Item.mk 2 (some "b-solo")) ∈
      [Entry.menu "A" [Item.mk 0 (some "x"), Item.mk 1 (some "y")] false,
       Entry.item (Item.mk 2 (some "b-solo"))] :=
  (orphan_invariance
    [Item.mk 0 (some "a-x"), Item.mk 1 (some "a-y"),
     Item.mk 2 (some "b-solo")]
    [Entry.menu "A" [Item.mk 0 (some "x"), Item.mk 1 (some "y")] false,
     Entry.item (Item.mk 2 (some "b-solo"))]
    (by decide) (by decide)
    (RepoData.mk (Item.mk 2 (some "b-solo")) "b-solo")
    (by decide) (by decide)).2.1

end RepoOrganizer

